import Mathlib

/-!
Shallow embedding of the wallpaper cursor/list component of
`src/wallpaper-changer.py` (class `WallpaperList`, class `Wallpaper`, and the
navigation handlers of `MainWindow`), together with proofs about it.

Modelling conventions:
* A Python `Wallpaper` object is a structure holding its `file_path`.
* `WallpaperList` (a `list` subclass with a `current_index` attribute) is a
  structure holding the ordered entries and the integer index.
* The content sniffer `imghdr.what` used by `Wallpaper.is_valid` is an external
  collaborator; it is passed in as a function `sniff : String → Bool`.
* Python exceptions are modelled with `Except`: a raising execution returns
  `.error s` where `s` is the object state at the moment of the raise (Python
  mutations performed before the raise persist on the object).
* Python list indexing `self[i]` (negative indices count from the end, fully
  out-of-range indices raise `IndexError`) is modelled by `pyGet`, which
  returns `none` exactly when Python would raise.
* Python `random.shuffle` is the Fisher-Yates loop
  `for i in reversed(range(1, len(x))): j = randbelow(i+1); swap x[i] x[j]`,
  modelled by `pyShuffle` with the random source `rand` supplied externally
  (`rand i % (i+1)` models a draw from `range(i+1)`).
* The `next`/`previous` loops additionally report how many times the validity
  predicate was invoked (a ghost counter; it does not influence control flow).
-/

namespace WallpaperChanger

structure Wallpaper where
  file_path : String
deriving DecidableEq, Repr

/-- Method `Wallpaper.is_valid`: `imghdr.what(self.file_path) is not None`,
with the content sniffer supplied as the parameter `sniff`. -/
def Wallpaper.is_valid (sniff : String → Bool) (w : Wallpaper) : Bool :=
  sniff w.file_path

structure WallpaperList where
  entries : List Wallpaper
  current_index : Int
deriving DecidableEq, Repr

/-- Python list indexing `l[i]`: a negative index counts from the end; the
result is `none` exactly when Python raises `IndexError`. -/
def pyGet (l : List Wallpaper) (i : Int) : Option Wallpaper :=
  let j : Int := if i < 0 then i + (l.length : Int) else i
  if j < 0 then none else l.get? j.toNat

/-- Statement `if self.current_index > len(self) - 1: self.current_index = 0`
inside `get_current` (the lazy clamp of an index past the end). -/
def clampIndex (ws : WallpaperList) : WallpaperList :=
  if ws.current_index > (ws.entries.length : Int) - 1 then
    { ws with current_index := 0 }
  else ws

/-- Method `WallpaperList.get_current`: returns `None` if the list is empty;
resets `current_index` to 0 if it is past the last index; then returns
`self[self.current_index]` (which may raise for indices below `-len`). -/
def get_current (ws : WallpaperList) :
    Except WallpaperList (Option Wallpaper × WallpaperList) :=
  if ws.entries.length = 0 then .ok (none, ws)
  else
    match pyGet (clampIndex ws).entries (clampIndex ws).current_index with
    | some w => .ok (some w, clampIndex ws)
    | none => .error (clampIndex ws)

/-- Forward wraparound step of `WallpaperList.next`:
`if self.current_index >= len(self) - 1: self.current_index = 0
else: self.current_index += 1`. -/
def stepNextIndex (ws : WallpaperList) : WallpaperList :=
  if ws.current_index ≥ (ws.entries.length : Int) - 1 then
    { ws with current_index := 0 }
  else
    { ws with current_index := ws.current_index + 1 }

/-- Backward wraparound step of `WallpaperList.previous`:
`if self.current_index <= 0: self.current_index = len(self) - 1
else: self.current_index -= 1`. -/
def stepPrevIndex (ws : WallpaperList) : WallpaperList :=
  if ws.current_index ≤ 0 then
    { ws with current_index := (ws.entries.length : Int) - 1 }
  else
    { ws with current_index := ws.current_index - 1 }

/-- Loop body of `WallpaperList.next`, with explicit fuel for the
`for try_no in range(10)` loop.  The `Nat` in the result counts the
invocations of the validity predicate.  A `.error` result models a raised
exception (`self.get_current()` returned `None`, so `.is_valid()` raises
`AttributeError`; or indexing raised `IndexError`). -/
def nextLoop (sniff : String → Bool) (ws : WallpaperList) :
    Nat → Except WallpaperList (Bool × WallpaperList × Nat)
  | 0 => .ok (false, ws, 0)
  | k + 1 =>
    match get_current (stepNextIndex ws) with
    | .error e => .error e
    | .ok (none, ws2) => .error ws2
    | .ok (some w, ws2) =>
      if w.is_valid sniff then .ok (true, ws2, 1)
      else
        match nextLoop sniff ws2 k with
        | .error e => .error e
        | .ok (b, ws3, c) => .ok (b, ws3, c + 1)

/-- Method `WallpaperList.next` (advance). -/
def next (sniff : String → Bool) (ws : WallpaperList) :
    Except WallpaperList (Bool × WallpaperList × Nat) :=
  nextLoop sniff ws 10

/-- Loop body of `WallpaperList.previous`, with explicit fuel; symmetric to
`nextLoop` but stepping backward. -/
def previousLoop (sniff : String → Bool) (ws : WallpaperList) :
    Nat → Except WallpaperList (Bool × WallpaperList × Nat)
  | 0 => .ok (false, ws, 0)
  | k + 1 =>
    match get_current (stepPrevIndex ws) with
    | .error e => .error e
    | .ok (none, ws2) => .error ws2
    | .ok (some w, ws2) =>
      if w.is_valid sniff then .ok (true, ws2, 1)
      else
        match previousLoop sniff ws2 k with
        | .error e => .error e
        | .ok (b, ws3, c) => .ok (b, ws3, c + 1)

/-- Method `WallpaperList.previous` (retreat). -/
def previous (sniff : String → Bool) (ws : WallpaperList) :
    Except WallpaperList (Bool × WallpaperList × Nat) :=
  previousLoop sniff ws 10

/-- One swap `x[i], x[j] = x[j], x[i]` of Python's Fisher-Yates shuffle. -/
def listSwap (l : List Wallpaper) (i j : Nat) : List Wallpaper :=
  match l.get? i, l.get? j with
  | some a, some b => (l.set i b).set j a
  | _, _ => l

/-- Fisher-Yates loop of `random.shuffle`, performing swaps for positions
`i, i-1, ..., 1`. -/
def shuffleAux (rand : Nat → Nat) : List Wallpaper → Nat → List Wallpaper
  | l, 0 => l
  | l, i + 1 => shuffleAux rand (listSwap l (i + 1) (rand (i + 1) % (i + 2))) i

/-- Call `random.shuffle(self)`: uniform shuffle by Fisher-Yates, the random
draws supplied by `rand` (`rand i % (i+1)` models `randbelow(i+1)`). -/
def pyShuffle (l : List Wallpaper) (rand : Nat → Nat) : List Wallpaper :=
  match l.length with
  | 0 => l
  | n + 1 => shuffleAux rand l n

/-- Method `WallpaperList.add_from_path`: appends one `Wallpaper` per file
produced by the `os.walk` directory scan (the scan result is passed in as
`files`), then shuffles the whole list in place.  `current_index` is
untouched. -/
def add_from_path (ws : WallpaperList) (files : List String)
    (rand : Nat → Nat) : WallpaperList :=
  { ws with entries := pyShuffle (ws.entries ++ files.map Wallpaper.mk) rand }

/-- Sequence `self.wallpapers.clear(); self.wallpapers.add_from_path(path)` as
performed by `MainWindow.reload_wallpapers`: wholesale replacement of the
collection (this is the spec's `load`). -/
def reload (ws : WallpaperList) (files : List String)
    (rand : Nat → Nat) : WallpaperList :=
  add_from_path { ws with entries := [] } files rand

/-- Slice of `MainWindow` state that the navigation handlers touch:
the cursor, whether the single-shot timer is running, and the list of
wallpaper paths handed to the platform setter (`set_active`) so far. -/
structure MainState where
  wallpapers : WallpaperList
  timerActive : Bool
  applied : List String
deriving DecidableEq, Repr

/-- Method `MainWindow.update_wallpaper`: reads the current entry; returns
early if it is `None`; otherwise applies it as the background
(`wallpaper.set_active()`) and restarts the single-shot timer
(`self.timer.start()`). -/
def update_wallpaper (s : MainState) : Except MainState MainState :=
  match get_current s.wallpapers with
  | .error ws1 => .error { s with wallpapers := ws1 }
  | .ok (none, ws1) => .ok { s with wallpapers := ws1 }
  | .ok (some w, ws1) =>
    .ok { s with
            wallpapers := ws1
            applied := s.applied ++ [w.file_path]
            timerActive := true }

/-- Handler `MainWindow.next_wallpaper`:
`if self.wallpapers.next(): self.update_wallpaper()`. -/
def next_wallpaper (sniff : String → Bool) (s : MainState) :
    Except MainState MainState :=
  match next sniff s.wallpapers with
  | .error e => .error { s with wallpapers := e }
  | .ok (true, ws1, _) => update_wallpaper { s with wallpapers := ws1 }
  | .ok (false, ws1, _) => .ok { s with wallpapers := ws1 }

/-- Handler `MainWindow.previous_wallpaper`:
`if self.wallpapers.previous(): self.update_wallpaper()`. -/
def previous_wallpaper (sniff : String → Bool) (s : MainState) :
    Except MainState MainState :=
  match previous sniff s.wallpapers with
  | .error e => .error { s with wallpapers := e }
  | .ok (true, ws1, _) => update_wallpaper { s with wallpapers := ws1 }
  | .ok (false, ws1, _) => .ok { s with wallpapers := ws1 }

/-- Validity of the entry Python would read at index `i`, as a Boolean test:
`true` iff `self[i]` exists and the sniffer accepts it. -/
def validAt (sniff : String → Bool) (l : List Wallpaper) (i : Int) : Bool :=
  match pyGet l i with
  | some w => w.is_valid sniff
  | none => false

/-- Entries of a navigation result, whatever the outcome (the Python object
survives a raised exception, so the error branch also carries a state). -/
def resultEntries (r : Except WallpaperList (Bool × WallpaperList × Nat)) :
    List Wallpaper :=
  match r with
  | .error ws => ws.entries
  | .ok (_, ws, _) => ws.entries

lemma clampIndex_entries (ws : WallpaperList) :
    (clampIndex ws).entries = ws.entries := by
  unfold clampIndex; split <;> rfl

lemma clampIndex_of_le (ws : WallpaperList)
    (h : ws.current_index ≤ (ws.entries.length : Int) - 1) :
    clampIndex ws = ws := by
  unfold clampIndex; rw [if_neg (by omega)]

lemma pyGet_nonneg (l : List Wallpaper) (i : Int) (h : 0 ≤ i) :
    pyGet l i = l.get? i.toNat := by
  simp only [pyGet]
  rw [if_neg (show ¬ i < 0 by omega), if_neg (show ¬ i < 0 by omega)]

lemma get_current_empty (ws : WallpaperList) (h : ws.entries = []) :
    get_current ws = .ok (none, ws) := by
  unfold get_current
  rw [if_pos (by rw [h]; rfl)]

lemma get_current_in_range (l : List Wallpaper) (i : Int) (h0 : 0 ≤ i)
    (h1 : i < (l.length : Int)) :
    ∃ w, l.get? i.toNat = some w ∧ get_current ⟨l, i⟩ = .ok (some w, ⟨l, i⟩) := by
  have hti : i.toNat < l.length := by omega
  have hcl : clampIndex ⟨l, i⟩ = ⟨l, i⟩ :=
    clampIndex_of_le _ (by show i ≤ (l.length : Int) - 1; omega)
  refine ⟨l.get ⟨i.toNat, hti⟩, List.get?_eq_get hti, ?_⟩
  unfold get_current
  rw [if_neg (show ¬ (WallpaperList.mk l i).entries.length = 0 by
    show ¬ l.length = 0; omega)]
  rw [hcl]
  show (match pyGet l i with
    | some w => Except.ok (some w, (⟨l, i⟩ : WallpaperList))
    | none => Except.error (⟨l, i⟩ : WallpaperList)) = _
  rw [pyGet_nonneg l i h0, List.get?_eq_get hti]

lemma get_current_clamp (l : List Wallpaper) (i : Int) (h0 : 0 < l.length)
    (h1 : (l.length : Int) - 1 < i) :
    ∃ w, l.get? 0 = some w ∧ get_current ⟨l, i⟩ = .ok (some w, ⟨l, 0⟩) := by
  have ht : 0 < l.length := h0
  have hcl : clampIndex ⟨l, i⟩ = ⟨l, 0⟩ := by
    unfold clampIndex
    rw [if_pos (show (WallpaperList.mk l i).current_index >
      ((WallpaperList.mk l i).entries.length : Int) - 1 from h1)]
  refine ⟨l.get ⟨0, ht⟩, List.get?_eq_get ht, ?_⟩
  unfold get_current
  rw [if_neg (show ¬ (WallpaperList.mk l i).entries.length = 0 by
    show ¬ l.length = 0; omega)]
  rw [hcl]
  show (match pyGet l 0 with
    | some w => Except.ok (some w, (⟨l, 0⟩ : WallpaperList))
    | none => Except.error (⟨l, 0⟩ : WallpaperList)) = _
  rw [pyGet_nonneg l 0 le_rfl, (show ((0 : Int)).toNat = 0 from rfl),
    List.get?_eq_get ht]

lemma get_current_neg_in (l : List Wallpaper) (i : Int)
    (h0 : -(l.length : Int) ≤ i) (h1 : i ≤ -1) :
    ∃ w, l.get? ((i + (l.length : Int)).toNat) = some w ∧
      get_current ⟨l, i⟩ = .ok (some w, ⟨l, i⟩) := by
  have hn : 0 < l.length := by omega
  have hti : (i + (l.length : Int)).toNat < l.length := by omega
  have hcl : clampIndex ⟨l, i⟩ = ⟨l, i⟩ :=
    clampIndex_of_le _ (by show i ≤ (l.length : Int) - 1; omega)
  have hpg : pyGet l i = l.get? ((i + (l.length : Int)).toNat) := by
    simp only [pyGet]
    rw [if_pos (show i < 0 by omega),
      if_neg (show ¬ i + (l.length : Int) < 0 by omega)]
  refine ⟨l.get ⟨(i + (l.length : Int)).toNat, hti⟩, List.get?_eq_get hti, ?_⟩
  unfold get_current
  rw [if_neg (show ¬ (WallpaperList.mk l i).entries.length = 0 by
    show ¬ l.length = 0; omega)]
  rw [hcl]
  show (match pyGet l i with
    | some w => Except.ok (some w, (⟨l, i⟩ : WallpaperList))
    | none => Except.error (⟨l, i⟩ : WallpaperList)) = _
  rw [hpg, List.get?_eq_get hti]

lemma get_current_neg_out (l : List Wallpaper) (i : Int) (h0 : 0 < l.length)
    (h1 : i < -(l.length : Int)) :
    get_current ⟨l, i⟩ = .error ⟨l, i⟩ := by
  have hcl : clampIndex ⟨l, i⟩ = ⟨l, i⟩ :=
    clampIndex_of_le _ (by show i ≤ (l.length : Int) - 1; omega)
  have hpg : pyGet l i = none := by
    simp only [pyGet]
    rw [if_pos (show i < 0 by omega),
      if_pos (show i + (l.length : Int) < 0 by omega)]
  unfold get_current
  rw [if_neg (show ¬ (WallpaperList.mk l i).entries.length = 0 by
    show ¬ l.length = 0; omega)]
  rw [hcl]
  show (match pyGet l i with
    | some w => Except.ok (some w, (⟨l, i⟩ : WallpaperList))
    | none => Except.error (⟨l, i⟩ : WallpaperList)) = _
  rw [hpg]

lemma get_current_none_iff (ws : WallpaperList) :
    (∃ ws1, get_current ws = .ok (none, ws1)) ↔ ws.entries = [] := by
  constructor
  · rintro ⟨ws1, h⟩
    by_contra hne
    rw [show get_current ws = (if ws.entries.length = 0 then
        Except.ok (none, ws)
      else
        match pyGet (clampIndex ws).entries (clampIndex ws).current_index with
        | some w => Except.ok (some w, clampIndex ws)
        | none => Except.error (clampIndex ws)) from rfl] at h
    rw [if_neg (by simp [hne])] at h
    cases hpg : pyGet (clampIndex ws).entries (clampIndex ws).current_index with
    | none => rw [hpg] at h; exact absurd h (by simp)
    | some w => rw [hpg] at h; exact absurd h (by simp)
  · intro h
    exact ⟨ws, get_current_empty ws h⟩

lemma get_current_ok (ws : WallpaperList) (o : Option Wallpaper)
    (ws1 : WallpaperList) (h : get_current ws = .ok (o, ws1)) :
    ws1.entries = ws.entries := by
  rw [show get_current ws = (if ws.entries.length = 0 then
      Except.ok (none, ws)
    else
      match pyGet (clampIndex ws).entries (clampIndex ws).current_index with
      | some w => Except.ok (some w, clampIndex ws)
      | none => Except.error (clampIndex ws)) from rfl] at h
  by_cases hlen : ws.entries.length = 0
  · rw [if_pos hlen] at h
    cases h; rfl
  · rw [if_neg hlen] at h
    cases hpg : pyGet (clampIndex ws).entries (clampIndex ws).current_index with
    | none => rw [hpg] at h; exact absurd h (by simp)
    | some w =>
      rw [hpg] at h
      have : ws1 = clampIndex ws := by
        have := h
        simp only [Except.ok.injEq, Prod.mk.injEq] at this
        exact this.2.symm
      rw [this, clampIndex_entries]

lemma get_current_ok_some (ws : WallpaperList) (w : Wallpaper)
    (ws1 : WallpaperList) (h : get_current ws = .ok (some w, ws1)) :
    pyGet ws1.entries ws1.current_index = some w := by
  rw [show get_current ws = (if ws.entries.length = 0 then
      Except.ok (none, ws)
    else
      match pyGet (clampIndex ws).entries (clampIndex ws).current_index with
      | some w => Except.ok (some w, clampIndex ws)
      | none => Except.error (clampIndex ws)) from rfl] at h
  by_cases hlen : ws.entries.length = 0
  · rw [if_pos hlen] at h
    exact absurd h (by simp)
  · rw [if_neg hlen] at h
    cases hpg : pyGet (clampIndex ws).entries (clampIndex ws).current_index with
    | none => rw [hpg] at h; exact absurd h (by simp)
    | some w2 =>
      rw [hpg] at h
      simp only [Except.ok.injEq, Prod.mk.injEq, Option.some.injEq] at h
      rw [h.2, h.1] at hpg
      exact hpg

lemma get_current_error (ws ws1 : WallpaperList)
    (h : get_current ws = .error ws1) : ws1.entries = ws.entries := by
  rw [show get_current ws = (if ws.entries.length = 0 then
      Except.ok (none, ws)
    else
      match pyGet (clampIndex ws).entries (clampIndex ws).current_index with
      | some w => Except.ok (some w, clampIndex ws)
      | none => Except.error (clampIndex ws)) from rfl] at h
  by_cases hlen : ws.entries.length = 0
  · rw [if_pos hlen] at h
    exact absurd h (by simp)
  · rw [if_neg hlen] at h
    cases hpg : pyGet (clampIndex ws).entries (clampIndex ws).current_index with
    | some w => rw [hpg] at h; exact absurd h (by simp)
    | none =>
      rw [hpg] at h
      simp only [Except.error.injEq] at h
      rw [← h, clampIndex_entries]

lemma stepNextIndex_entries (ws : WallpaperList) :
    (stepNextIndex ws).entries = ws.entries := by
  unfold stepNextIndex; split <;> rfl

lemma stepPrevIndex_entries (ws : WallpaperList) :
    (stepPrevIndex ws).entries = ws.entries := by
  unfold stepPrevIndex; split <;> rfl

lemma stepNextIndex_in_range (l : List Wallpaper) (i : Int) (h0 : 0 ≤ i)
    (h1 : i < (l.length : Int)) :
    stepNextIndex ⟨l, i⟩ = ⟨l, (i + 1) % (l.length : Int)⟩ := by
  simp only [stepNextIndex]
  by_cases hc : i ≥ (l.length : Int) - 1
  · rw [if_pos hc]
    have hi : i = (l.length : Int) - 1 := by omega
    have : (i + 1) % (l.length : Int) = 0 := by
      rw [hi, sub_add_cancel, Int.emod_self]
    rw [this]
  · rw [if_neg hc]
    have : (i + 1) % (l.length : Int) = i + 1 :=
      Int.emod_eq_of_lt (by omega) (by omega)
    rw [this]

lemma stepPrevIndex_in_range (l : List Wallpaper) (i : Int) (h0 : 0 ≤ i)
    (h1 : i < (l.length : Int)) :
    stepPrevIndex ⟨l, i⟩ = ⟨l, (i - 1) % (l.length : Int)⟩ := by
  simp only [stepPrevIndex]
  by_cases hc : i ≤ 0
  · rw [if_pos hc]
    have hi : i = 0 := by omega
    have : (i - 1) % (l.length : Int) = (l.length : Int) - 1 := by
      rw [hi, zero_sub]
      rw [show (-1 : Int) = ((l.length : Int) - 1) + (l.length : Int) * (-1) by ring]
      rw [Int.add_mul_emod_self_left]
      exact Int.emod_eq_of_lt (by omega) (by omega)
    rw [this]
  · rw [if_neg hc]
    have : (i - 1) % (l.length : Int) = i - 1 :=
      Int.emod_eq_of_lt (by omega) (by omega)
    rw [this]

lemma nextLoop_entries (sniff : String → Bool) :
    ∀ (k : Nat) (ws : WallpaperList),
      resultEntries (nextLoop sniff ws k) = ws.entries := by
  intro k
  induction k with
  | zero => intro ws; rfl
  | succ k ih =>
    intro ws
    simp only [nextLoop]
    cases hgc : get_current (stepNextIndex ws) with
    | error e =>
      simp only [resultEntries]
      rw [get_current_error _ _ hgc, stepNextIndex_entries]
    | ok p =>
      obtain ⟨o, ws2⟩ := p
      have hws2 : ws2.entries = ws.entries := by
        rw [get_current_ok _ _ _ hgc, stepNextIndex_entries]
      cases o with
      | none => simp only [resultEntries]; exact hws2
      | some w =>
        cases hv : w.is_valid sniff with
        | true =>
          simp only [hv, if_true, resultEntries]
          exact hws2
        | false =>
          simp only [hv, Bool.false_eq_true, if_false]
          have hrec := ih ws2
          cases hnl : nextLoop sniff ws2 k with
          | error e =>
            rw [hnl] at hrec
            simp only [resultEntries] at hrec ⊢
            rw [hrec, hws2]
          | ok t =>
            obtain ⟨b, ws3, c⟩ := t
            rw [hnl] at hrec
            simp only [resultEntries] at hrec ⊢
            rw [hrec, hws2]

lemma previousLoop_entries (sniff : String → Bool) :
    ∀ (k : Nat) (ws : WallpaperList),
      resultEntries (previousLoop sniff ws k) = ws.entries := by
  intro k
  induction k with
  | zero => intro ws; rfl
  | succ k ih =>
    intro ws
    simp only [previousLoop]
    cases hgc : get_current (stepPrevIndex ws) with
    | error e =>
      simp only [resultEntries]
      rw [get_current_error _ _ hgc, stepPrevIndex_entries]
    | ok p =>
      obtain ⟨o, ws2⟩ := p
      have hws2 : ws2.entries = ws.entries := by
        rw [get_current_ok _ _ _ hgc, stepPrevIndex_entries]
      cases o with
      | none => simp only [resultEntries]; exact hws2
      | some w =>
        cases hv : w.is_valid sniff with
        | true =>
          simp only [hv, if_true, resultEntries]
          exact hws2
        | false =>
          simp only [hv, Bool.false_eq_true, if_false]
          have hrec := ih ws2
          cases hnl : previousLoop sniff ws2 k with
          | error e =>
            rw [hnl] at hrec
            simp only [resultEntries] at hrec ⊢
            rw [hrec, hws2]
          | ok t =>
            obtain ⟨b, ws3, c⟩ := t
            rw [hnl] at hrec
            simp only [resultEntries] at hrec ⊢
            rw [hrec, hws2]

lemma nextLoop_invalid (sniff : String → Bool) (l : List Wallpaper)
    (hinv : ∀ w ∈ l, w.is_valid sniff = false) :
    ∀ (k : Nat) (i : Int), 0 ≤ i → i < (l.length : Int) →
      nextLoop sniff ⟨l, i⟩ k =
        .ok (false, ⟨l, (i + (k : Int)) % (l.length : Int)⟩, k) := by
  intro k
  induction k with
  | zero =>
    intro i h1 h2
    have harith : (i + ((0 : Nat) : Int)) % (l.length : Int) = i := by
      rw [Nat.cast_zero, add_zero]
      exact Int.emod_eq_of_lt h1 h2
    rw [harith]
    rfl
  | succ k ih =>
    intro i h1 h2
    have hn : (0 : Int) < l.length := by omega
    have hstep := stepNextIndex_in_range l i h1 h2
    set i1 : Int := (i + 1) % (l.length : Int) with hi1
    have hb1 : 0 ≤ i1 := Int.emod_nonneg _ (by omega)
    have hb2 : i1 < (l.length : Int) := Int.emod_lt_of_pos _ hn
    obtain ⟨w, hw, hgc⟩ := get_current_in_range l i1 hb1 hb2
    have hv : w.is_valid sniff = false := hinv w (List.get?_mem hw)
    simp only [nextLoop]
    rw [hstep, hgc]
    simp only [hv, Bool.false_eq_true, if_false]
    rw [ih i1 hb1 hb2]
    have harith : (i1 + (k : Int)) % (l.length : Int)
        = (i + ((k + 1 : Nat) : Int)) % (l.length : Int) := by
      rw [hi1, Int.emod_add_emod]
      congr 1
      push_cast
      ring
    rw [harith]

lemma previousLoop_invalid (sniff : String → Bool) (l : List Wallpaper)
    (hinv : ∀ w ∈ l, w.is_valid sniff = false) :
    ∀ (k : Nat) (i : Int), 0 ≤ i → i < (l.length : Int) →
      previousLoop sniff ⟨l, i⟩ k =
        .ok (false, ⟨l, (i - (k : Int)) % (l.length : Int)⟩, k) := by
  intro k
  induction k with
  | zero =>
    intro i h1 h2
    have harith : (i - ((0 : Nat) : Int)) % (l.length : Int) = i := by
      rw [Nat.cast_zero, sub_zero]
      exact Int.emod_eq_of_lt h1 h2
    rw [harith]
    rfl
  | succ k ih =>
    intro i h1 h2
    have hn : (0 : Int) < l.length := by omega
    have hstep := stepPrevIndex_in_range l i h1 h2
    set i1 : Int := (i - 1) % (l.length : Int) with hi1
    have hb1 : 0 ≤ i1 := Int.emod_nonneg _ (by omega)
    have hb2 : i1 < (l.length : Int) := Int.emod_lt_of_pos _ hn
    obtain ⟨w, hw, hgc⟩ := get_current_in_range l i1 hb1 hb2
    have hv : w.is_valid sniff = false := hinv w (List.get?_mem hw)
    simp only [previousLoop]
    rw [hstep, hgc]
    simp only [hv, Bool.false_eq_true, if_false]
    rw [ih i1 hb1 hb2]
    have harith : (i1 - (k : Int)) % (l.length : Int)
        = (i - ((k + 1 : Nat) : Int)) % (l.length : Int) := by
      rw [hi1, sub_eq_add_neg, Int.emod_add_emod]
      congr 1
      push_cast
      ring
    rw [harith]

lemma nextLoop_in_range (sniff : String → Bool) (l : List Wallpaper) :
    ∀ (k : Nat) (i : Int), 0 ≤ i → i < (l.length : Int) →
      ∃ b i2 c, nextLoop sniff ⟨l, i⟩ k = .ok (b, ⟨l, i2⟩, c) ∧
        0 ≤ i2 ∧ i2 < (l.length : Int) := by
  intro k
  induction k with
  | zero => intro i h1 h2; exact ⟨false, i, 0, rfl, h1, h2⟩
  | succ k ih =>
    intro i h1 h2
    have hstep := stepNextIndex_in_range l i h1 h2
    set i1 : Int := (i + 1) % (l.length : Int) with hi1
    have hb1 : 0 ≤ i1 := Int.emod_nonneg _ (by omega)
    have hb2 : i1 < (l.length : Int) := Int.emod_lt_of_pos _ (by omega)
    obtain ⟨w, hw, hgc⟩ := get_current_in_range l i1 hb1 hb2
    simp only [nextLoop]
    rw [hstep, hgc]
    cases hv : w.is_valid sniff with
    | true =>
      simp only [hv, if_true]
      exact ⟨true, i1, 1, rfl, hb1, hb2⟩
    | false =>
      simp only [hv, Bool.false_eq_true, if_false]
      obtain ⟨b, i2, c, hres, hc1, hc2⟩ := ih i1 hb1 hb2
      rw [hres]
      exact ⟨b, i2, c + 1, rfl, hc1, hc2⟩

lemma previousLoop_in_range (sniff : String → Bool) (l : List Wallpaper) :
    ∀ (k : Nat) (i : Int), 0 ≤ i → i < (l.length : Int) →
      ∃ b i2 c, previousLoop sniff ⟨l, i⟩ k = .ok (b, ⟨l, i2⟩, c) ∧
        0 ≤ i2 ∧ i2 < (l.length : Int) := by
  intro k
  induction k with
  | zero => intro i h1 h2; exact ⟨false, i, 0, rfl, h1, h2⟩
  | succ k ih =>
    intro i h1 h2
    have hstep := stepPrevIndex_in_range l i h1 h2
    set i1 : Int := (i - 1) % (l.length : Int) with hi1
    have hb1 : 0 ≤ i1 := Int.emod_nonneg _ (by omega)
    have hb2 : i1 < (l.length : Int) := Int.emod_lt_of_pos _ (by omega)
    obtain ⟨w, hw, hgc⟩ := get_current_in_range l i1 hb1 hb2
    simp only [previousLoop]
    rw [hstep, hgc]
    cases hv : w.is_valid sniff with
    | true =>
      simp only [hv, if_true]
      exact ⟨true, i1, 1, rfl, hb1, hb2⟩
    | false =>
      simp only [hv, Bool.false_eq_true, if_false]
      obtain ⟨b, i2, c, hres, hc1, hc2⟩ := ih i1 hb1 hb2
      rw [hres]
      exact ⟨b, i2, c + 1, rfl, hc1, hc2⟩

lemma nextLoop_ok_true (sniff : String → Bool) :
    ∀ (k : Nat) (ws ws2 : WallpaperList) (c : Nat),
      nextLoop sniff ws k = .ok (true, ws2, c) →
      validAt sniff ws2.entries ws2.current_index = true := by
  intro k
  induction k with
  | zero =>
    intro ws ws2 c h
    exact absurd h (by simp [nextLoop])
  | succ k ih =>
    intro ws ws2 c h
    simp only [nextLoop] at h
    cases hgc : get_current (stepNextIndex ws) with
    | error e => rw [hgc] at h; exact absurd h (by simp)
    | ok p =>
      obtain ⟨o, ws1⟩ := p
      rw [hgc] at h
      cases o with
      | none => exact absurd h (by simp)
      | some w =>
        cases hv : w.is_valid sniff with
        | true =>
          simp only [hv, if_true] at h
          have hq := get_current_ok_some _ _ _ hgc
          simp only [Except.ok.injEq, Prod.mk.injEq] at h
          obtain ⟨-, hws, -⟩ := h
          unfold validAt
          rw [← hws, hq]
          exact hv
        | false =>
          simp only [hv, Bool.false_eq_true, if_false] at h
          cases hnl : nextLoop sniff ws1 k with
          | error e => rw [hnl] at h; exact absurd h (by simp)
          | ok t =>
            obtain ⟨b, ws3, c3⟩ := t
            rw [hnl] at h
            simp only [Except.ok.injEq, Prod.mk.injEq] at h
            obtain ⟨hb, hw3, -⟩ := h
            rw [hb, hw3] at hnl
            exact ih ws1 ws2 c3 hnl

lemma previousLoop_ok_true (sniff : String → Bool) :
    ∀ (k : Nat) (ws ws2 : WallpaperList) (c : Nat),
      previousLoop sniff ws k = .ok (true, ws2, c) →
      validAt sniff ws2.entries ws2.current_index = true := by
  intro k
  induction k with
  | zero =>
    intro ws ws2 c h
    exact absurd h (by simp [previousLoop])
  | succ k ih =>
    intro ws ws2 c h
    simp only [previousLoop] at h
    cases hgc : get_current (stepPrevIndex ws) with
    | error e => rw [hgc] at h; exact absurd h (by simp)
    | ok p =>
      obtain ⟨o, ws1⟩ := p
      rw [hgc] at h
      cases o with
      | none => exact absurd h (by simp)
      | some w =>
        cases hv : w.is_valid sniff with
        | true =>
          simp only [hv, if_true] at h
          have hq := get_current_ok_some _ _ _ hgc
          simp only [Except.ok.injEq, Prod.mk.injEq] at h
          obtain ⟨-, hws, -⟩ := h
          unfold validAt
          rw [← hws, hq]
          exact hv
        | false =>
          simp only [hv, Bool.false_eq_true, if_false] at h
          cases hnl : previousLoop sniff ws1 k with
          | error e => rw [hnl] at h; exact absurd h (by simp)
          | ok t =>
            obtain ⟨b, ws3, c3⟩ := t
            rw [hnl] at h
            simp only [Except.ok.injEq, Prod.mk.injEq] at h
            obtain ⟨hb, hw3, -⟩ := h
            rw [hb, hw3] at hnl
            exact ih ws1 ws2 c3 hnl

lemma nextLoop_first_valid (sniff : String → Bool) (l : List Wallpaper)
    (k : Nat) (i : Int) (h1 : 0 ≤ i) (h2 : i < (l.length : Int))
    (hv : validAt sniff l ((i + 1) % (l.length : Int)) = true) :
    nextLoop sniff ⟨l, i⟩ (k + 1) =
      .ok (true, ⟨l, (i + 1) % (l.length : Int)⟩, 1) := by
  have hstep := stepNextIndex_in_range l i h1 h2
  set i1 : Int := (i + 1) % (l.length : Int) with hi1
  have hb1 : 0 ≤ i1 := Int.emod_nonneg _ (by omega)
  have hb2 : i1 < (l.length : Int) := Int.emod_lt_of_pos _ (by omega)
  obtain ⟨w, hw, hgc⟩ := get_current_in_range l i1 hb1 hb2
  have hwv : w.is_valid sniff = true := by
    unfold validAt at hv
    rw [pyGet_nonneg l i1 hb1, hw] at hv
    exact hv
  simp only [nextLoop]
  rw [hstep, hgc]
  simp only [hwv, if_true]

lemma previousLoop_first_valid (sniff : String → Bool) (l : List Wallpaper)
    (k : Nat) (i : Int) (h1 : 0 ≤ i) (h2 : i < (l.length : Int))
    (hv : validAt sniff l ((i - 1) % (l.length : Int)) = true) :
    previousLoop sniff ⟨l, i⟩ (k + 1) =
      .ok (true, ⟨l, (i - 1) % (l.length : Int)⟩, 1) := by
  have hstep := stepPrevIndex_in_range l i h1 h2
  set i1 : Int := (i - 1) % (l.length : Int) with hi1
  have hb1 : 0 ≤ i1 := Int.emod_nonneg _ (by omega)
  have hb2 : i1 < (l.length : Int) := Int.emod_lt_of_pos _ (by omega)
  obtain ⟨w, hw, hgc⟩ := get_current_in_range l i1 hb1 hb2
  have hwv : w.is_valid sniff = true := by
    unfold validAt at hv
    rw [pyGet_nonneg l i1 hb1, hw] at hv
    exact hv
  simp only [previousLoop]
  rw [hstep, hgc]
  simp only [hwv, if_true]

lemma nextLoop_success (sniff : String → Bool) (l : List Wallpaper) :
    ∀ (k : Nat) (i : Int), 0 ≤ i → i < (l.length : Int) →
      (∃ j : Nat, 1 ≤ j ∧ j ≤ k ∧
        validAt sniff l ((i + (j : Int)) % (l.length : Int)) = true) →
      ∃ (i2 : Int) (c : Nat),
        nextLoop sniff ⟨l, i⟩ k = .ok (true, ⟨l, i2⟩, c) := by
  intro k
  induction k with
  | zero =>
    rintro i h1 h2 ⟨j, hj1, hj2, -⟩
    omega
  | succ k ih =>
    rintro i h1 h2 ⟨j, hj1, hj2, hjv⟩
    have hn : (0 : Int) < l.length := by omega
    have hstep := stepNextIndex_in_range l i h1 h2
    set i1 : Int := (i + 1) % (l.length : Int) with hi1
    have hb1 : 0 ≤ i1 := Int.emod_nonneg _ (by omega)
    have hb2 : i1 < (l.length : Int) := Int.emod_lt_of_pos _ hn
    obtain ⟨w, hw, hgc⟩ := get_current_in_range l i1 hb1 hb2
    have hva : validAt sniff l i1 = w.is_valid sniff := by
      unfold validAt
      rw [pyGet_nonneg l i1 hb1, hw]
    simp only [nextLoop]
    rw [hstep, hgc]
    cases hv : w.is_valid sniff with
    | true =>
      simp only [hv, if_true]
      exact ⟨i1, 1, rfl⟩
    | false =>
      simp only [hv, Bool.false_eq_true, if_false]
      have hj2' : 2 ≤ j := by
        by_contra hlt
        have hj : j = 1 := by omega
        rw [hj, Nat.cast_one, ← hi1, hva, hv] at hjv
        exact Bool.false_ne_true hjv
      have hjv' : validAt sniff l
          ((i1 + ((j - 1 : Nat) : Int)) % (l.length : Int)) = true := by
        have harith : (i1 + ((j - 1 : Nat) : Int)) % (l.length : Int)
            = (i + (j : Int)) % (l.length : Int) := by
          rw [hi1, Int.emod_add_emod]
          congr 1
          push_cast [Nat.cast_sub (by omega : 1 ≤ j)]
          ring
        rw [harith]
        exact hjv
      obtain ⟨i2, c, hres⟩ := ih i1 hb1 hb2 ⟨j - 1, by omega, by omega, hjv'⟩
      rw [hres]
      exact ⟨i2, c + 1, rfl⟩

lemma count_setW (l : List Wallpaper) (n : Nat) (a x : Wallpaper)
    (h : n < l.length) :
    (l.set n a).count x + ([l[n]].count x) = l.count x + ([a].count x) := by
  have e1 : (l.set n a).count x
      = (l.take n).count x + ([a].count x + (l.drop (n + 1)).count x) := by
    rw [List.set_eq_take_cons_drop a h, List.count_append,
      show (a :: l.drop (n + 1) : List Wallpaper) = [a] ++ l.drop (n + 1)
        from rfl,
      List.count_append]
  have e2 : l.count x
      = (l.take n).count x + ([l[n]].count x + (l.drop (n + 1)).count x) := by
    conv_lhs => rw [← List.take_append_drop n l]
    rw [List.count_append, List.drop_eq_getElem_cons h,
      show (l[n] :: l.drop (n + 1) : List Wallpaper) = [l[n]] ++ l.drop (n + 1)
        from rfl,
      List.count_append]
  omega

lemma listSwap_perm (l : List Wallpaper) (i j : Nat) :
    (listSwap l i j).Perm l := by
  unfold listSwap
  cases hgi : l.get? i with
  | none => cases hgj : l.get? j <;> exact List.Perm.refl l
  | some a =>
    cases hgj : l.get? j with
    | none => exact List.Perm.refl l
    | some b =>
      have hi : i < l.length := by
        by_contra hni
        rw [List.get?_eq_getElem?, List.getElem?_eq_none (by omega)] at hgi
        exact Option.noConfusion hgi
      have hj : j < l.length := by
        by_contra hnj
        rw [List.get?_eq_getElem?, List.getElem?_eq_none (by omega)] at hgj
        exact Option.noConfusion hgj
      have hai : l[i] = a := by
        rw [List.get?_eq_getElem?, List.getElem?_eq_getElem hi] at hgi
        exact Option.some.inj hgi
      have hbj : l[j] = b := by
        rw [List.get?_eq_getElem?, List.getElem?_eq_getElem hj] at hgj
        exact Option.some.inj hgj
      show ((l.set i b).set j a).Perm l
      rw [List.perm_iff_count]
      intro x
      have hj' : j < (l.set i b).length := by
        rw [List.length_set]; exact hj
      have h2 := count_setW (l.set i b) j a x hj'
      have h1 := count_setW l i b x hi
      rw [hai] at h1
      have hsb : (l.set i b)[j] = b := by
        by_cases hij : i = j
        · subst hij
          exact List.getElem_set_self _
        · rw [List.getElem_set_of_ne hij]
          exact hbj
      rw [hsb] at h2
      omega

lemma shuffleAux_perm (rand : Nat → Nat) :
    ∀ (n : Nat) (l : List Wallpaper), (shuffleAux rand l n).Perm l := by
  intro n
  induction n with
  | zero => intro l; exact List.Perm.refl l
  | succ n ih =>
    intro l
    simp only [shuffleAux]
    exact (ih _).trans (listSwap_perm l (n + 1) (rand (n + 1) % (n + 2)))

lemma pyShuffle_perm (l : List Wallpaper) (rand : Nat → Nat) :
    (pyShuffle l rand).Perm l := by
  unfold pyShuffle
  cases hl : l.length with
  | zero => exact List.Perm.refl l
  | succ n => exact shuffleAux_perm rand n l

/-- C1: the claim states that on the empty collection `advance()` (`next`) and
`retreat()` (`previous`) terminate normally and report failure.  On the code
they raise instead: the loop body calls `self.get_current().is_valid()`, and
`get_current` returns `None` for an empty collection, so Python raises
`AttributeError` (after mutating the index: `next` sets it to 0, `previous`
to -1).  Only the `current()` part of the claim holds: it returns the none
sentinel without raising. -/
theorem c1_empty_navigation_raises (sniff : String → Bool) :
    next sniff ⟨[], 0⟩ = .error ⟨[], 0⟩ ∧
    previous sniff ⟨[], 0⟩ = .error ⟨[], -1⟩ ∧
    get_current ⟨[], 0⟩ = .ok (none, ⟨[], 0⟩) :=
  ⟨rfl, rfl, rfl⟩

/-- C2 counterexample: with a single invalid entry and the timer idle, a
failing `next_wallpaper` cycle leaves `timerActive = false` — the claim says
the timer is still rearmed (`timerActive = true`), but `timer.start()` is
only reached inside `update_wallpaper`, which runs only on success. -/
theorem c2_counterexample :
    next_wallpaper (fun _ => false) ⟨⟨[⟨"/b.txt"⟩], 0⟩, false, []⟩ =
      .ok ⟨⟨[⟨"/b.txt"⟩], 0⟩, false, []⟩ :=
  rfl

/-- C2 amended: when the navigation step fails (returns `false`), the
wallpaper-apply step is skipped AND the timer is not rearmed in that cycle:
the handler returns with only the cursor state updated, leaving
`timerActive` and the applied-wallpaper log unchanged. -/
theorem c2_failed_navigation_skips_apply_and_timer
    (sniff : String → Bool) (s : MainState) (ws1 : WallpaperList) (c : Nat)
    (h : next sniff s.wallpapers = .ok (false, ws1, c)) :
    next_wallpaper sniff s = .ok { s with wallpapers := ws1 } := by
  unfold next_wallpaper
  rw [h]

/-- C2 witness: a concrete failing cycle (two invalid entries, timer running)
for `c2_failed_navigation_skips_apply_and_timer`. -/
theorem c2_witness :
    next_wallpaper (fun _ => false) ⟨⟨[⟨"/b.txt"⟩, ⟨"/d.txt"⟩], 0⟩, true, []⟩ =
      .ok ⟨⟨[⟨"/b.txt"⟩, ⟨"/d.txt"⟩], 0⟩, true, []⟩ :=
  c2_failed_navigation_skips_apply_and_timer _ _ _ 10 rfl

/-- C3: on a non-empty collection with no valid entry, starting anywhere in
range, `next` invokes the validity predicate exactly 10 times, reports
failure, and leaves the index at `(start + 10) mod n`; `previous` likewise
leaves `(start - 10) mod n`. -/
theorem c3_all_invalid_ten_attempts (sniff : String → Bool)
    (l : List Wallpaper) (i : Int) (h0 : 0 < l.length) (h1 : 0 ≤ i)
    (h2 : i < (l.length : Int))
    (hinv : ∀ w ∈ l, w.is_valid sniff = false) :
    next sniff ⟨l, i⟩ = .ok (false, ⟨l, (i + 10) % (l.length : Int)⟩, 10) ∧
    previous sniff ⟨l, i⟩ =
      .ok (false, ⟨l, (i - 10) % (l.length : Int)⟩, 10) := by
  constructor
  · have h := nextLoop_invalid sniff l hinv 10 i h1 h2
    unfold next
    rw [h]
    norm_num
  · have h := previousLoop_invalid sniff l hinv 10 i h1 h2
    unfold previous
    rw [h]
    norm_num

/-- C3 witness: a singleton invalid collection; both directions fail after
exactly 10 probes and land back on index 0. -/
theorem c3_witness :
    next (fun _ => false) ⟨[⟨"/b.txt"⟩], 0⟩ =
      .ok (false, ⟨[⟨"/b.txt"⟩], (0 + 10) % (1 : Int)⟩, 10) ∧
    previous (fun _ => false) ⟨[⟨"/b.txt"⟩], 0⟩ =
      .ok (false, ⟨[⟨"/b.txt"⟩], (0 - 10) % (1 : Int)⟩, 10) :=
  c3_all_invalid_ten_attempts _ _ _ (by decide) (by decide) (by decide)
    (fun w _ => rfl)

/-- C4: whenever `next` reports success the entry at the final index
satisfies the validity predicate; and from an in-range start with some valid
entry within 10 forward hops, `next` always succeeds and lands on a valid
entry. -/
theorem c4_advance_success_lands_valid (sniff : String → Bool)
    (l : List Wallpaper) (i : Int) :
    (∀ (ws ws2 : WallpaperList) (c : Nat),
      next sniff ws = .ok (true, ws2, c) →
      validAt sniff ws2.entries ws2.current_index = true) ∧
    (0 ≤ i → i < (l.length : Int) →
      (∃ j : Nat, 1 ≤ j ∧ j ≤ 10 ∧
        validAt sniff l ((i + (j : Int)) % (l.length : Int)) = true) →
      ∃ (i2 : Int) (c : Nat),
        next sniff ⟨l, i⟩ = .ok (true, ⟨l, i2⟩, c) ∧
        validAt sniff l i2 = true) := by
  constructor
  · intro ws ws2 c h
    exact nextLoop_ok_true sniff 10 ws ws2 c h
  · intro h1 h2 hex
    obtain ⟨i2, c, hres⟩ := nextLoop_success sniff l 10 i h1 h2 hex
    exact ⟨i2, c, hres, nextLoop_ok_true sniff 10 ⟨l, i⟩ ⟨l, i2⟩ c hres⟩

/-- C4 witness: the spec scenario — `["/a.png","/b.txt","/c.jpg"]` with an
extension-based sniffer, starting at the invalid `/b.txt`. -/
theorem c4_witness :
    ∃ (i2 : Int) (c : Nat),
      next (fun s => (["/a.png", "/c.jpg"]).contains s)
          ⟨[⟨"/a.png"⟩, ⟨"/b.txt"⟩, ⟨"/c.jpg"⟩], 1⟩ =
        .ok (true, ⟨[⟨"/a.png"⟩, ⟨"/b.txt"⟩, ⟨"/c.jpg"⟩], i2⟩, c) ∧
      validAt (fun s => (["/a.png", "/c.jpg"]).contains s)
        [⟨"/a.png"⟩, ⟨"/b.txt"⟩, ⟨"/c.jpg"⟩] i2 = true :=
  (c4_advance_success_lands_valid _ _ 1).2 (by decide) (by decide)
    ⟨1, by decide, by decide, by decide⟩

/-- C5 counterexample: on a non-empty collection with `current_index = -2`
(below `-len`), `current()` raises (`IndexError`) instead of returning the
entry at `current_index`; the claim as stated promises that for a non-empty
collection an entry is always returned. -/
theorem c5_counterexample :
    get_current ⟨[⟨"/a.png"⟩], -2⟩ = .error ⟨[⟨"/a.png"⟩], -2⟩ :=
  rfl

/-- C5 amended: `current()` returns the none sentinel exactly when the
collection is empty; on a non-empty collection an index past the end is first
reset to 0 and the head returned; an index in `[0, n)` returns that entry
with the index unchanged; a negative index in `[-n, -1]` returns the entry at
`n + current_index` (Python indexing) with the index unchanged; and an index
below `-n` raises instead of returning. -/
theorem c5_current_characterization (ws : WallpaperList)
    (l : List Wallpaper) (i : Int) :
    ((∃ ws1, get_current ws = .ok (none, ws1)) ↔ ws.entries = []) ∧
    (0 < l.length → (l.length : Int) - 1 < i →
      ∃ w, l.get? 0 = some w ∧ get_current ⟨l, i⟩ = .ok (some w, ⟨l, 0⟩)) ∧
    (0 ≤ i → i < (l.length : Int) →
      ∃ w, l.get? i.toNat = some w ∧
        get_current ⟨l, i⟩ = .ok (some w, ⟨l, i⟩)) ∧
    (-(l.length : Int) ≤ i → i ≤ -1 →
      ∃ w, l.get? ((i + (l.length : Int)).toNat) = some w ∧
        get_current ⟨l, i⟩ = .ok (some w, ⟨l, i⟩)) ∧
    (0 < l.length → i < -(l.length : Int) →
      get_current ⟨l, i⟩ = .error ⟨l, i⟩) :=
  ⟨get_current_none_iff ws,
    fun h0 h1 => get_current_clamp l i h0 h1,
    fun h1 h2 => get_current_in_range l i h1 h2,
    fun h0 h1 => get_current_neg_in l i h0 h1,
    fun h0 h1 => get_current_neg_out l i h0 h1⟩

/-- C5 witness: the empty collection returns the none sentinel, and an index
past the end of a two-entry collection is clamped to 0. -/
theorem c5_witness :
    (∃ ws1, get_current ⟨[], 7⟩ = .ok (none, ws1)) ∧
    (∃ w, ([⟨"/a.png"⟩, ⟨"/c.jpg"⟩] : List Wallpaper).get? 0 = some w ∧
      get_current ⟨[⟨"/a.png"⟩, ⟨"/c.jpg"⟩], 5⟩ =
        .ok (some w, ⟨[⟨"/a.png"⟩, ⟨"/c.jpg"⟩], 0⟩)) :=
  ⟨(c5_current_characterization ⟨[], 7⟩ [] 0).1.mpr rfl,
   (c5_current_characterization ⟨[], 7⟩ [⟨"/a.png"⟩, ⟨"/c.jpg"⟩] 5).2.1
     (by decide) (by decide)⟩

/-- C6 counterexample: reading the current entry with `current_index = -1` on
a non-empty two-entry collection succeeds but leaves the index at -1, outside
`[0, len)` — the claimed invariant does not hold after every read, because
the lazy clamp only fires for indices past the end, never for negative
ones. -/
theorem c6_counterexample :
    get_current ⟨[⟨"/a.png"⟩, ⟨"/c.jpg"⟩], -1⟩ =
      .ok (some ⟨"/c.jpg"⟩, ⟨[⟨"/a.png"⟩, ⟨"/c.jpg"⟩], -1⟩) ∧
    ¬ (0 ≤ (WallpaperList.mk [⟨"/a.png"⟩, ⟨"/c.jpg"⟩] (-1)).current_index) :=
  ⟨rfl, by decide⟩

/-- C6 amended: the lazy clamp restores `0 ≤ current_index < len` on read
only for nonnegative starting indices (negative indices are not clamped);
and `next`/`previous` started from an in-range index on a non-empty
collection terminate normally and leave the index in range. -/
theorem c6_index_invariant (sniff : String → Bool) (l : List Wallpaper)
    (i : Int) :
    (0 ≤ i → l ≠ [] → ∀ o ws1, get_current ⟨l, i⟩ = .ok (o, ws1) →
      ws1.entries = l ∧ 0 ≤ ws1.current_index ∧
        ws1.current_index < (l.length : Int)) ∧
    (0 ≤ i → i < (l.length : Int) →
      (∃ b i2 c, next sniff ⟨l, i⟩ = .ok (b, ⟨l, i2⟩, c) ∧
        0 ≤ i2 ∧ i2 < (l.length : Int)) ∧
      (∃ b i2 c, previous sniff ⟨l, i⟩ = .ok (b, ⟨l, i2⟩, c) ∧
        0 ≤ i2 ∧ i2 < (l.length : Int))) := by
  constructor
  · intro hi hne o ws1 h
    have hlen : 0 < l.length := List.length_pos.mpr hne
    by_cases hc : i < (l.length : Int)
    · obtain ⟨w, hw, hgc⟩ := get_current_in_range l i hi hc
      rw [hgc] at h
      have : ws1 = ⟨l, i⟩ := by
        have h' := h.symm
        simp only [Except.ok.injEq, Prod.mk.injEq] at h'
        exact h'.2
      rw [this]
      exact ⟨rfl, hi, hc⟩
    · obtain ⟨w, hw, hgc⟩ := get_current_clamp l i hlen (by omega)
      rw [hgc] at h
      have : ws1 = ⟨l, 0⟩ := by
        simp only [Except.ok.injEq, Prod.mk.injEq] at h
        exact h.2.symm
      rw [this]
      exact ⟨rfl, le_rfl, by show (0 : Int) < l.length; omega⟩
  · intro h1 h2
    exact ⟨nextLoop_in_range sniff l 10 i h1 h2,
      previousLoop_in_range sniff l 10 i h1 h2⟩

/-- C6 witness: both navigation directions from index 1 of a two-entry
all-invalid collection stay in range. -/
theorem c6_witness :
    (∃ b i2 c, next (fun _ => false) ⟨[⟨"/b.txt"⟩, ⟨"/d.txt"⟩], 1⟩ =
      .ok (b, ⟨[⟨"/b.txt"⟩, ⟨"/d.txt"⟩], i2⟩, c) ∧
      0 ≤ i2 ∧ i2 < (2 : Int)) ∧
    (∃ b i2 c, previous (fun _ => false) ⟨[⟨"/b.txt"⟩, ⟨"/d.txt"⟩], 1⟩ =
      .ok (b, ⟨[⟨"/b.txt"⟩, ⟨"/d.txt"⟩], i2⟩, c) ∧
      0 ≤ i2 ∧ i2 < (2 : Int)) :=
  (c6_index_invariant (fun _ => false) [⟨"/b.txt"⟩, ⟨"/d.txt"⟩] 1).2
    (by decide) (by decide)

/-- C7: on a non-empty collection in which every entry is valid, `advance()`
followed by `retreat()` from any in-range index returns the cursor to the
starting index (round-trip law; both steps succeed after one probe). -/
theorem c7_round_trip (sniff : String → Bool) (l : List Wallpaper) (i : Int)
    (h1 : 0 ≤ i) (h2 : i < (l.length : Int))
    (hall : ∀ w ∈ l, w.is_valid sniff = true) :
    ∃ i1, next sniff ⟨l, i⟩ = .ok (true, ⟨l, i1⟩, 1) ∧
      previous sniff ⟨l, i1⟩ = .ok (true, ⟨l, i⟩, 1) := by
  have hn : (0 : Int) < l.length := by omega
  have hvalid : ∀ (m : Int), 0 ≤ m → m < (l.length : Int) →
      validAt sniff l m = true := by
    intro m hm1 hm2
    obtain ⟨w, hw, -⟩ := get_current_in_range l m hm1 hm2
    unfold validAt
    rw [pyGet_nonneg l m hm1, hw]
    exact hall w (List.get?_mem hw)
  set i1 : Int := (i + 1) % (l.length : Int) with hi1
  have hb1 : 0 ≤ i1 := Int.emod_nonneg _ (by omega)
  have hb2 : i1 < (l.length : Int) := Int.emod_lt_of_pos _ hn
  have hnext := nextLoop_first_valid sniff l 9 i h1 h2 (hvalid i1 hb1 hb2)
  have hprev_target : (i1 - 1) % (l.length : Int) = i := by
    by_cases hc : i + 1 = (l.length : Int)
    · rw [hi1, hc, Int.emod_self, zero_sub,
        show (-1 : Int) = ((l.length : Int) - 1) + (l.length : Int) * (-1)
          by ring,
        Int.add_mul_emod_self_left,
        Int.emod_eq_of_lt (by omega) (by omega)]
      omega
    · have he : i1 = i + 1 := by
        rw [hi1]
        exact Int.emod_eq_of_lt (by omega) (by omega)
      rw [he, add_sub_cancel_right]
      exact Int.emod_eq_of_lt h1 h2
  have hprev := previousLoop_first_valid sniff l 9 i1 hb1 hb2
    (by rw [hprev_target]; exact hvalid i h1 h2)
  rw [hprev_target] at hprev
  exact ⟨i1, hnext, hprev⟩

/-- C7 witness: the round trip on a two-entry all-valid collection starting
at index 0. -/
theorem c7_witness :
    ∃ i1, next (fun _ => true) ⟨[⟨"/a.png"⟩, ⟨"/c.jpg"⟩], 0⟩ =
        .ok (true, ⟨[⟨"/a.png"⟩, ⟨"/c.jpg"⟩], i1⟩, 1) ∧
      previous (fun _ => true) ⟨[⟨"/a.png"⟩, ⟨"/c.jpg"⟩], i1⟩ =
        .ok (true, ⟨[⟨"/a.png"⟩, ⟨"/c.jpg"⟩], 0⟩, 1) :=
  c7_round_trip _ _ 0 (by decide) (by decide) (fun w _ => rfl)

/-- C8: after a wholesale reload (the spec's `load`), the collection is a
permutation of the scanned input paths: the multiset of wrapped paths equals
the multiset of inputs and the length is preserved, for any random draws. -/
theorem c8_load_is_permutation (ws : WallpaperList) (files : List String)
    (rand : Nat → Nat) (hne : files ≠ []) :
    ((reload ws files rand).entries.map Wallpaper.file_path).Perm files ∧
    (reload ws files rand).entries.length = files.length := by
  have hperm : (reload ws files rand).entries.Perm (files.map Wallpaper.mk) :=
    pyShuffle_perm (([] : List Wallpaper) ++ files.map Wallpaper.mk) rand
  have hmap : ∀ fs : List String,
      (fs.map Wallpaper.mk).map Wallpaper.file_path = fs := by
    intro fs
    induction fs with
    | nil => rfl
    | cons a t ih => simp only [List.map_cons, ih]
  constructor
  · have h2 := hperm.map Wallpaper.file_path
    rw [hmap files] at h2
    exact h2
  · rw [hperm.length_eq, List.length_map]

/-- C8 witness: reloading a nonessential prior collection with two concrete
paths yields a permutation of those two paths. -/
theorem c8_witness :
    (((reload ⟨[⟨"/zz"⟩], 3⟩ ["/a.png", "/b.txt"] (fun n => n)).entries.map
      Wallpaper.file_path).Perm ["/a.png", "/b.txt"]) ∧
    (reload ⟨[⟨"/zz"⟩], 3⟩ ["/a.png", "/b.txt"]
      (fun n => n)).entries.length = 2 :=
  c8_load_is_permutation ⟨[⟨"/zz"⟩], 3⟩ ["/a.png", "/b.txt"] (fun n => n)
    (by decide)

/-- C9: Python negative-indexing semantics of `current()` on a non-empty
collection: only indices past the end are clamped; an index in `[-n, -1]`
returns the entry at position `n + current_index` and leaves the index
unchanged; an index below `-n` raises rather than returning the none
sentinel. -/
theorem c9_negative_index_python_semantics (l : List Wallpaper) (i : Int)
    (h0 : 0 < l.length) :
    (-(l.length : Int) ≤ i → i ≤ -1 →
      ∃ w, l.get? (((l.length : Int) + i).toNat) = some w ∧
        get_current ⟨l, i⟩ = .ok (some w, ⟨l, i⟩)) ∧
    (i < -(l.length : Int) → get_current ⟨l, i⟩ = .error ⟨l, i⟩) := by
  constructor
  · intro ha hb
    obtain ⟨w, hw, hgc⟩ := get_current_neg_in l i ha hb
    rw [show (l.length : Int) + i = i + (l.length : Int) from add_comm _ _]
    exact ⟨w, hw, hgc⟩
  · intro h
    exact get_current_neg_out l i h0 h

/-- C9 witness: index -1 on a two-entry collection returns the last entry and
stays at -1; index -3 raises. -/
theorem c9_witness :
    (∃ w, ([⟨"/a.png"⟩, ⟨"/c.jpg"⟩] : List Wallpaper).get?
        (((2 : Int) + -1).toNat) = some w ∧
      get_current ⟨[⟨"/a.png"⟩, ⟨"/c.jpg"⟩], -1⟩ =
        .ok (some w, ⟨[⟨"/a.png"⟩, ⟨"/c.jpg"⟩], -1⟩)) ∧
    get_current ⟨[⟨"/a.png"⟩, ⟨"/c.jpg"⟩], -3⟩ =
      .error ⟨[⟨"/a.png"⟩, ⟨"/c.jpg"⟩], -3⟩ :=
  ⟨(c9_negative_index_python_semantics [⟨"/a.png"⟩, ⟨"/c.jpg"⟩] (-1)
      (by decide)).1 (by decide) (by decide),
   (c9_negative_index_python_semantics [⟨"/a.png"⟩, ⟨"/c.jpg"⟩] (-3)
      (by decide)).2 (by decide)⟩

/-- C10: frame condition — `next` and `previous` modify only
`current_index`: for every collection, every sniffer and every outcome
(success, failure, or raise) the sequence of entries is unchanged. -/
theorem c10_navigation_preserves_entries (sniff : String → Bool)
    (ws : WallpaperList) :
    resultEntries (next sniff ws) = ws.entries ∧
    resultEntries (previous sniff ws) = ws.entries :=
  ⟨nextLoop_entries sniff 10 ws, previousLoop_entries sniff 10 ws⟩

end WallpaperChanger
